import Mathlib

/-!
Verification of the OS-variant registry, defaulting and sorting engine of
`virtinst/osdict.py`.

The Python module is shallowly embedded:
* Python 2 byte strings are Lean `String`s, compared with an explicit
  byte-wise (code-point-wise) lexicographic order `pyStrLt` / `pyStrLe`
  that mirrors Python 2 `str` comparison for the ASCII data the module uses;
  `str.lower()` is `pyLower` (ASCII lowercasing, as in Python 2's C locale).
* The polymorphic values stored in `_OSVariant` attributes are modelled by
  `Val`: the `_SENTINEL` constant, a plain value (`None`, a bool or a
  string), or a `_SupportCheck` (a list of (support key, value) pairs).
* The global dict `_allvariants` is threaded explicitly as a `Registry`
  (a list of variants whose dict key is the record's `name`, which is an
  invariant of the registration helpers `_add_type` / `_add_var`).
* Raised exceptions (`RuntimeError`, `KeyError`) become `Except.error`.
-/

namespace Osdict

/-! ### Python 2 string primitives -/

/-- Lexicographic strict order on char lists by code point, as Python 2
compares byte strings (the module's data is ASCII). -/
def charListLt : List Char → List Char → Bool
  | [], [] => false
  | [], _ :: _ => true
  | _ :: _, [] => false
  | a :: as, b :: bs =>
    if a.toNat < b.toNat then true
    else if b.toNat < a.toNat then false
    else charListLt as bs

/-- Python 2 `<` on strings. -/
def pyStrLt (a b : String) : Bool := charListLt a.data b.data

/-- Python 2 `<=` on strings. -/
def pyStrLe (a b : String) : Bool := pyStrLt a b || a == b

/-- `pyStrLe` as a relation, used to state sortedness. -/
def pyLe (a b : String) : Prop := pyStrLe a b = true

/-- `pyStrLt` as a relation. -/
def pyLt (a b : String) : Prop := pyStrLt a b = true

instance : DecidableRel pyLe := fun a b => instDecidableEqBool _ _

instance : DecidableRel pyLt := fun a b => instDecidableEqBool _ _

/-- ASCII lowercasing of one character, as Python 2 `str.lower()` does
per byte in the C locale. -/
def pyLowerChar (c : Char) : Char :=
  if 65 ≤ c.toNat ∧ c.toNat ≤ 90 then Char.ofNat (c.toNat + 32) else c

/-- Python 2 `str.lower()`. -/
def pyLower (s : String) : String := String.mk (s.data.map pyLowerChar)

/-! ### Values stored in OS-variant attributes -/

/-- A plain Python value that can sit in an `_OSVariant` attribute or in a
`_SupportCheck` pair: `None`, a bool, or a string.  (The module stores no
other plain values; in particular no ints, so none of these can collide
with the int `_SENTINEL = -1234`.) -/
inductive SVal where
  | vnone
  | vbool (b : Bool)
  | vstr (s : String)
  deriving DecidableEq, Repr

/-- The content of an `_OSVariant` attribute: the `_SENTINEL` marker, a
plain value, or a `_SupportCheck` object (its list of
`(support key, value)` checks). -/
inductive Val where
  | sentinel
  | base (v : SVal)
  | check (cs : List (String × SVal))
  deriving DecidableEq, Repr

/-- Python truthiness of a `Val` (`_SENTINEL = -1234` is a nonzero int,
hence truthy; a `_SupportCheck` object is truthy). -/
def Val.truthy : Val → Bool
  | .sentinel => true
  | .base .vnone => false
  | .base (.vbool b) => b
  | .base (.vstr s) => !(s == "")
  | .check _ => true

instance {ε α : Type} [DecidableEq ε] [DecidableEq α] : DecidableEq (Except ε α) :=
  fun a b =>
    match a, b with
    | .ok x, .ok y =>
      if h : x = y then .isTrue (by rw [h])
      else .isFalse (fun hh => h (Except.ok.inj hh))
    | .error x, .error y =>
      if h : x = y then .isTrue (by rw [h])
      else .isFalse (fun hh => h (Except.error.inj hh))
    | .ok _, .error _ => .isFalse (fun hh => Except.noConfusion hh)
    | .error _, .ok _ => .isFalse (fun hh => Except.noConfusion hh)

/-- `_SupportCheck._checks`: the ordered (support key, value) list. -/
abbrev SupportCheck := List (String × SVal)

/-- `_SupportCheck.check(conn, hv_type)`: return the value of the first
pair whose support key the connection reports, else `_SENTINEL`.
The connection oracle is modelled as its `check_conn_hv_support` method:
a function from (support key, hv_type) to Bool. -/
def SupportCheck.check (self : SupportCheck) (conn : String → String → Bool)
    (hv_type : String) : Val :=
  match self with
  | [] => .sentinel
  | (support_key, value) :: rest =>
    if conn support_key hv_type then .base value
    else SupportCheck.check rest conn hv_type

/-- Ghost-instrumented copy of `SupportCheck.check` that also returns the
list of support keys passed to the oracle, in the order they are queried. -/
def SupportCheck.checkWithTrace (self : SupportCheck)
    (conn : String → String → Bool) (hv_type : String) : Val × List String :=
  match self with
  | [] => (.sentinel, [])
  | (support_key, value) :: rest =>
    if conn support_key hv_type then (.base value, [support_key])
    else
      let t := SupportCheck.checkWithTrace rest conn hv_type
      (t.1, support_key :: t.2)

/-- The conditional-default resolution of spec 4.2 as the code realises it:
`check` followed by the `_SENTINEL -> default` substitution performed by
`lookup_osdict_key`. -/
def resolveCheck (cs : SupportCheck) (conn : String → String → Bool)
    (hv_type : String) (fallback : Val) : Val :=
  match SupportCheck.check cs conn hv_type with
  | .sentinel => fallback
  | v => v

def SUPPORT_CONN_HV_VIRTIO : String := "SUPPORT_CONN_HV_VIRTIO"

def SUPPORT_CONN_HV_SKIP_DEFAULT_ACPI : String := "SUPPORT_CONN_HV_SKIP_DEFAULT_ACPI"

def _DISK_BUS_VIRTIO : SupportCheck := [( SUPPORT_CONN_HV_VIRTIO, .vstr "virtio")]

def _NET_MODEL_VIRTIO : SupportCheck := [( SUPPORT_CONN_HV_VIRTIO, .vstr "virtio")]

def _ACPI_OLD_XEN : SupportCheck := [(SUPPORT_CONN_HV_SKIP_DEFAULT_ACPI, .vbool false)]

/-! ### `_OSVariant` and the registry -/

/-- A fully constructed `_OSVariant`. -/
structure OSVariant where
  name : String
  label : String
  sortby : Option String
  is_type : Bool
  typename : String
  distro : Val
  supported : Val
  three_stage_install : Val
  acpi : Val
  apic : Val
  clock : Val
  netmodel : Val
  videomodel : Val
  diskbus : Val
  inputtype : Val
  inputbus : Val
  deriving DecidableEq, Repr

/-- The `_allvariants` dict.  Its keys are the records' names (both
`_add_type` and `_add_var` insert under `v.name`), so it is modelled as a
list of records looked up by name. -/
abbrev Registry := List OSVariant

/-- `_allvariants.get(key)` / `_allvariants[key]` lookup. -/
def regGet (reg : Registry) (key : String) : Option OSVariant :=
  reg.find? (fun r => r.name == key)

/-- `_allvariants[v.name] = v`: Python dict assignment replaces an existing
binding and otherwise appends a new one. -/
def regSet (reg : Registry) (v : OSVariant) : Registry :=
  if reg.any (fun r => r.name == v.name) then
    reg.map (fun r => if r.name == v.name then v else r)
  else reg ++ [v]

/-- The keyword arguments of `_OSVariant.__init__`, with the same defaults.
`parent = none` models `parent=_SENTINEL` (not supplied); the attribute
parameters use `Val.sentinel` for "not supplied". -/
structure Args where
  name : String
  label : String
  is_type : Bool := false
  sortby : Option String := none
  parent : Option String := none
  distro : Val := .sentinel
  supported : Val := .sentinel
  three_stage_install : Val := .sentinel
  acpi : Val := .sentinel
  apic : Val := .sentinel
  clock : Val := .sentinel
  netmodel : Val := .sentinel
  diskbus : Val := .sentinel
  inputtype : Val := .sentinel
  inputbus : Val := .sentinel
  videomodel : Val := .sentinel
  deriving DecidableEq, Repr

/-- The parent-resolution prologue of `_OSVariant.__init__` (lines 184-191):
types must not name a parent, variants must, and the named parent is fetched
from `_allvariants` (a missing key raises `KeyError`). -/
def resolveParent (reg : Registry) (a : Args) : Except String (Option OSVariant) :=
  if a.is_type then
    match a.parent with
    | some _ => .error "OS types must not specify parent"
    | none => .ok none
  else
    match a.parent with
    | none => .error "Must specify explicit parent"
    | some pname =>
      match regGet reg pname with
      | none => .error "KeyError"
      | some p => .ok (some p)

/-- `_get_default(name, val, default=_SENTINEL)`: the inherited-field
resolver closed over the (already resolved) parent object.  The field
accessor plays the role of the `name` string handed to `getattr`. -/
def _get_default (parent : Option OSVariant) (getter : OSVariant → Val)
    (val : Val) (dflt : Val) : Val :=
  if val = .sentinel then
    match parent with
    | none => dflt
    | some p => getter p
  else val

/-- The expression `self.is_type and self.name or _SENTINEL` that seeds the
`typename` resolution (an empty name is falsy in Python). -/
def typenameRaw (a : Args) : Val :=
  if a.is_type then (if a.name = "" then .sentinel else .base (.vstr a.name))
  else .sentinel

def _approved_types : List String := ["linux", "windows", "unix", "solaris", "other"]

/-- The value `self.typename` is resolved to before the approved-types
check (total companion of the corresponding step of `mkVariant`). -/
def typenameVal (reg : Registry) (a : Args) : Val :=
  match resolveParent reg a with
  | .error _ => .sentinel
  | .ok parent =>
    _get_default parent (fun p => .base (.vstr p.typename)) (typenameRaw a) .sentinel

/-- `_OSVariant.__init__`, in the source's order: parent checks, lowercase
check, typename resolution and approved-types check, then eager resolution
of every inherited field against the parent object. -/
def mkVariant (reg : Registry) (a : Args) : Except String OSVariant :=
  match resolveParent reg a with
  | .error e => .error e
  | .ok parent =>
    if pyLower a.name ≠ a.name then
      .error "OS dictionary wants lowercase name"
    else
      match _get_default parent (fun p => .base (.vstr p.typename)) (typenameRaw a) .sentinel with
      | .base (.vstr tn) =>
        if tn ∈ _approved_types then
          .ok
            { name := a.name
              label := a.label
              sortby := a.sortby
              is_type := a.is_type
              typename := tn
              distro := _get_default parent (fun p => p.distro) a.distro (.base .vnone)
              supported := _get_default parent (fun p => p.supported) a.supported (.base (.vbool false))
              three_stage_install :=
                _get_default parent (fun p => p.three_stage_install) a.three_stage_install .sentinel
              acpi := _get_default parent (fun p => p.acpi) a.acpi .sentinel
              apic := _get_default parent (fun p => p.apic) a.apic .sentinel
              clock := _get_default parent (fun p => p.clock) a.clock .sentinel
              netmodel := _get_default parent (fun p => p.netmodel) a.netmodel .sentinel
              videomodel := _get_default parent (fun p => p.videomodel) a.videomodel .sentinel
              diskbus := _get_default parent (fun p => p.diskbus) a.diskbus .sentinel
              inputtype := _get_default parent (fun p => p.inputtype) a.inputtype .sentinel
              inputbus := _get_default parent (fun p => p.inputbus) a.inputbus .sentinel }
        else .error "not in list of approved distro types"
      | _ => .error "not in list of approved distro types"

/-- `_add_var(...)`: construct and store under the record's name. -/
def _add_var (reg : Registry) (a : Args) : Except String Registry :=
  match mkVariant reg a with
  | .error e => .error e
  | .ok v => .ok (regSet reg v)

/-- `_add_type(...)`: force `is_type=True`, construct and store. -/
def _add_type (reg : Registry) (a : Args) : Except String Registry :=
  _add_var reg { a with is_type := true }

/-! ### The `_sort` algorithm -/

/-- `osinfo.sortby or key`: the effective sort key of a record (its dict
key is its name; `None` and the empty string are falsy). -/
def effKey (r : OSVariant) : String :=
  match r.sortby with
  | some s => if s = "" then r.name else s
  | none => r.name

/-- `osinfo.distro or "zzzzzzz"`: the effective grouping family.  For
constructed records `distro` is always `None` or a string; the impossible
cases are mapped to the sentinel group as well. -/
def effFamily (r : OSVariant) : String :=
  match r.distro with
  | .base (.vstr s) => if s = "" then "zzzzzzz" else s
  | _ => "zzzzzzz"

/-- Dict assignment `m[k] = v` for a string-keyed association list:
replace the binding in place, or append a fresh one. -/
def upsert {α : Type} (m : List (String × α)) (k : String) (v : α) :
    List (String × α) :=
  if m.any (fun p => p.1 == k) then
    m.map (fun p => if p.1 == k then (k, v) else p)
  else m ++ [(k, v)]

/-- One iteration of the first loop of `_sort`: record
`sortby_mappings[sortby] = key` and append `sortby` to
`distro_mappings[distro]`. -/
def buildStep (acc : List (String × String) × List (String × List String))
    (r : OSVariant) : List (String × String) × List (String × List String) :=
  let sortby := effKey r
  let distro := effFamily r
  let sm := upsert acc.1 sortby r.name
  let dm :=
    match List.lookup distro acc.2 with
    | none => acc.2 ++ [(distro, [sortby])]
    | some g => upsert acc.2 distro (g ++ [sortby])
  (sm, dm)

/-- The first loop of `_sort`, building `sortby_mappings` and
`distro_mappings`. -/
def buildMaps (tosort : List OSVariant) :
    List (String × String) × List (String × List String) :=
  tosort.foldl buildStep ([], [])

/-- Python's ascending `list.sort()` on strings. -/
def sortStr (l : List String) : List String := List.insertionSort pyLe l

/-- The `sortpref` loop: walk the reversed preference list and pull each
family that is present to the front (`remove` + `insert(0, ...)`). -/
def applyPref (l : List String) (sortpref : List String) : List String :=
  sortpref.reverse.foldl
    (fun acc prefer => if prefer ∈ acc then prefer :: acc.erase prefer else acc) l

/-- `_sort(tosort, sortpref=None)`.  `tosort` is the name-keyed dict
passed by `list_os`, so dict indexing `tosort[orig_key]` is lookup by
name. -/
def _sort (tosort : List OSVariant) (sortpref : List String) : List OSVariant :=
  let maps := buildMaps tosort
  let sortby_mappings := maps.1
  let distro_mappings := maps.2
  let sorted_distro_list :=
    applyPref (sortStr (distro_mappings.map Prod.fst)) sortpref
  sorted_distro_list.flatMap (fun distro =>
    match List.lookup distro distro_mappings with
    | none => []
    | some distro_list =>
      ((sortStr distro_list).reverse).filterMap (fun key =>
        (List.lookup key sortby_mappings).bind
          (fun orig_key => tosort.find? (fun r => r.name == orig_key))))

/-! ### `list_os` and `lookup_osdict_key` -/

/-- The filter conditions of `list_os` (one `continue` per conjunct;
`typename` and `filtervars` follow Python truthiness, so an empty string
or an empty list disables the corresponding filter). -/
def keepOs (list_types : Bool) (typename : Option String)
    (filtervars : Option (List String)) (only_supported : Bool)
    (r : OSVariant) : Bool :=
  if list_types && !r.is_type then false
  else if !list_types && r.is_type then false
  else if (match typename with
           | some t => !(t == "") && !(t == r.typename)
           | none => false) then false
  else if (match filtervars with
           | some fv => !fv.isEmpty && !(fv.contains r.name)
           | none => false) then false
  else if only_supported && !r.supported.truthy then false
  else true

/-- `list_os(...)`: filter `_allvariants` and hand the surviving
name-keyed dict to `_sort`. -/
def list_os (reg : Registry) (list_types : Bool) (typename : Option String)
    (filtervars : Option (List String)) (only_supported : Bool)
    (sortpref : List String) : List OSVariant :=
  _sort (reg.filter (keepOs list_types typename filtervars only_supported)) sortpref

/-- The attribute names `lookup_osdict_key` is used with (the `getattr`
key). -/
inductive FieldK where
  | distro | supported | three_stage_install
  | acpi | apic | clock | netmodel | videomodel | diskbus | inputtype | inputbus
  deriving DecidableEq, Repr

/-- `getattr(variant, key)` for the modelled attributes. -/
def getField (r : OSVariant) : FieldK → Val
  | .distro => r.distro
  | .supported => r.supported
  | .three_stage_install => r.three_stage_install
  | .acpi => r.acpi
  | .apic => r.apic
  | .clock => r.clock
  | .netmodel => r.netmodel
  | .videomodel => r.videomodel
  | .diskbus => r.diskbus
  | .inputtype => r.inputtype
  | .inputbus => r.inputbus

/-- `lookup_osdict_key(conn, hv_type, variant, key, default)`. -/
def lookup_osdict_key (reg : Registry) (conn : String → String → Bool)
    (hv_type : String) (variant : Option String) (key : FieldK)
    (dflt : Val) : Except String Val :=
  match variant with
  | some vname =>
    match regGet reg vname with
    | none => .error "KeyError"
    | some r =>
      let val := getField r key
      let val :=
        match val with
        | .check cs => SupportCheck.check cs conn hv_type
        | _ => val
      .ok (if val = .sentinel then dflt else val)
  | none =>
    .ok (if (Val.sentinel : Val) = .sentinel then dflt else .sentinel)

/-! ### Specification-side descriptions of the sort -/

/-- The real grouping family of a record, when it has one (`distro` set to
a non-empty string); records without one fall into the synthetic
`"zzzzzzz"` group. -/
def realFam (r : OSVariant) : Option String :=
  match r.distro with
  | .base (.vstr s) => if s = "" then none else some s
  | _ => none

/-- Comparison of records by their effective sort key. -/
def byKeyLe (a b : OSVariant) : Prop := pyLe (effKey a) (effKey b)

instance : DecidableRel byKeyLe := fun a b => instDecidableEqBool _ _

/-- Strict comparison of records by their effective sort key. -/
def byKeyLt (a b : OSVariant) : Prop := pyLt (effKey a) (effKey b)

/-- The records of family `d`, ascending by effective sort key. -/
def groupAsc (l : List OSVariant) (d : String) : List OSVariant :=
  List.insertionSort byKeyLe (l.filter (fun r => effFamily r == d))

/-- The records of family `d`, descending by effective sort key. -/
def groupDesc (l : List OSVariant) (d : String) : List OSVariant :=
  (groupAsc l d).reverse

/-- All effective families of `l` (synthetic group included), ascending. -/
def famsOf (l : List OSVariant) : List String :=
  sortStr (l.map effFamily).dedup

/-- Canonical description of what `_sort` computes: per-family groups
descending by effective key, families ascending, then the preference pull
applied to the family order. -/
def canonSort (l : List OSVariant) (pref : List String) : List OSVariant :=
  (applyPref (famsOf l) pref).flatMap (fun d => groupDesc l d)

/-- The real (non-synthetic) families of `l`, ascending. -/
def realFamilies (l : List OSVariant) : List String :=
  sortStr (l.filterMap realFam).dedup

/-- The group order claimed by the spec: preferred families first in the
caller's order, then the remaining real families ascending. -/
def claimGroupOrder (l : List OSVariant) (pref : List String) : List String :=
  pref.filter (fun p => decide (p ∈ realFamilies l)) ++
    (realFamilies l).filter (fun d => decide (d ∉ pref))

/-- The output sequence claimed by the spec: the real-family groups in
`claimGroupOrder`, each descending by effective key, and the synthetic
no-family group last. -/
def claimSort (l : List OSVariant) (pref : List String) : List OSVariant :=
  (claimGroupOrder l pref).flatMap (fun d => groupDesc l d) ++ groupDesc l "zzzzzzz"

/-! ### Concrete data used by witnesses and counterexamples -/

/-- A bare variant record with the given name, sort key and distro, as it
would sit in the registry (fields that play no role in sorting are fixed). -/
def plainVar (name : String) (sortby : Option String) (distro : Val) : OSVariant :=
  { name := name
    label := name
    sortby := sortby
    is_type := false
    typename := "linux"
    distro := distro
    supported := .base (.vbool false)
    three_stage_install := .sentinel
    acpi := .sentinel
    apic := .sentinel
    clock := .sentinel
    netmodel := .sentinel
    videomodel := .sentinel
    diskbus := .sentinel
    inputtype := .sentinel
    inputbus := .sentinel }

/-- An oracle that supports nothing. -/
def oracleFalse : String → String → Bool := fun _ _ => false

/-- A placeholder record used only to peel `Option`s of concrete data. -/
def dummyVar : OSVariant := plainVar "" none .sentinel

/-- The registrations of the source up to `debiansqueeze`: the `linux`
type and the start of the debian chain, with the exact keyword arguments
of the source lines. -/
def demoBuild4 : Except String Registry := do
  let r0 ← _add_type [] { name := "linux", label := "Linux" }
  let r1 ← _add_var r0
    { name := "debianetch", label := "Debian Etch", distro := .base (.vstr "debian"),
      sortby := some "debian4", parent := some "linux" }
  let r2 ← _add_var r1
    { name := "debianlenny", label := "Debian Lenny", sortby := some "debian5",
      supported := .base (.vbool true), diskbus := .check _DISK_BUS_VIRTIO,
      netmodel := .check _NET_MODEL_VIRTIO, parent := some "debianetch" }
  let r3 ← _add_var r2
    { name := "debiansqueeze", label := "Debian Squeeze", sortby := some "debian6",
      diskbus := .check _DISK_BUS_VIRTIO, netmodel := .check _NET_MODEL_VIRTIO,
      inputtype := .base (.vstr "tablet"), inputbus := .base (.vstr "usb"),
      parent := some "debianlenny" }
  pure r3

/-- The registry after the registrations up to `debiansqueeze`. -/
def demoReg4 : Registry := demoBuild4.toOption.getD []

/-- The keyword arguments of the `debianwheezy` registration. -/
def wheezyArgs : Args :=
  { name := "debianwheezy", label := "Debian Wheezy", sortby := some "debian7",
    parent := some "debiansqueeze" }

/-- A registry slice built exactly like the source's registrations:
the debian chain, and the `other` type with `msdos`. -/
def demoBuild : Except String Registry := do
  let r4 ← demoBuild4
  let r5 ← _add_var r4 wheezyArgs
  let r6 ← _add_type r5 { name := "other", label := "Other" }
  let r7 ← _add_var r6
    { name := "msdos", label := "MS-DOS", acpi := .base (.vbool false),
      apic := .base (.vbool false), parent := some "other" }
  pure r7

/-- The demo registry itself. -/
def demoReg : Registry := demoBuild.toOption.getD []

/-- The constructed `debianwheezy` record. -/
def wheezyRec : OSVariant := (mkVariant demoReg4 wheezyArgs).toOption.getD dummyVar

/-- The constructed `debiansqueeze` record. -/
def squeezeRec : OSVariant := (regGet demoReg4 "debiansqueeze").getD dummyVar

/-- The constructed `msdos` record. -/
def msdosRec : OSVariant := (regGet demoReg "msdos").getD dummyVar

/-- A record whose real family name sorts after the `"zzzzzzz"` sentinel. -/
def cxA : OSVariant := plainVar "a" none (.base (.vstr "zzzzzzzz"))

/-- A record with no grouping family. -/
def cxB : OSVariant := plainVar "b" none (.base .vnone)

/-- Three records with one effective-sort-key collision (`c8x` and `c8y`
share the key `"u"` across two families). -/
def c8x : OSVariant := plainVar "x" (some "u") (.base (.vstr "a"))

def c8z : OSVariant := plainVar "z" (some "t") (.base (.vstr "a"))

def c8y : OSVariant := plainVar "y" (some "u") (.base (.vstr "b"))

/-- A bare type record. -/
def typeRec : OSVariant :=
  { plainVar "linux" none (.base .vnone) with is_type := true, typename := "linux" }

/-- Distinctly keyed records over two real families and the synthetic
group, used to exercise the sort claims. -/
def w1 : OSVariant := plainVar "alpha" none (.base (.vstr "deb"))

def w2 : OSVariant := plainVar "beta" (some "k9") (.base (.vstr "deb"))

def w3 : OSVariant := plainVar "gamma" none (.base .vnone)

def w4 : OSVariant := plainVar "delta" none (.base (.vstr "fed"))

/-- The arguments of a first `linux` type registration. -/
def linuxArgs : Args := { name := "linux", label := "Linux" }

/-- A second registration under the already-taken name `linux`. -/
def linuxArgs2 : Args := { name := "linux", label := "Linux Again" }

/-- The registry holding the first `linux` registration. -/
def dupReg1 : Registry := (_add_type [] linuxArgs).toOption.getD []

/-- The registry after the duplicate registration. -/
def dupReg2 : Registry := (_add_type dupReg1 linuxArgs2).toOption.getD []

/-- The record constructed by the duplicate registration. -/
def linuxRec2 : OSVariant :=
  (mkVariant dupReg1 { linuxArgs2 with is_type := true }).toOption.getD dummyVar

/-! ### Order theory of the Python string comparison -/

theorem charListLt_irrefl (l : List Char) : charListLt l l = false := by
  induction l with
  | nil => rfl
  | cons a t ih => simp [charListLt, ih]

theorem charListLt_trans {a b c : List Char} (h1 : charListLt a b = true)
    (h2 : charListLt b c = true) : charListLt a c = true := by
  induction a generalizing b c with
  | nil =>
    cases b with
    | nil => exact absurd h1 (by simp [charListLt])
    | cons y bs =>
      cases c with
      | nil => exact absurd h2 (by simp [charListLt])
      | cons z cs => simp [charListLt]
  | cons x as ih =>
    cases b with
    | nil => exact absurd h1 (by simp [charListLt])
    | cons y bs =>
      cases c with
      | nil => exact absurd h2 (by simp [charListLt])
      | cons z cs =>
        simp only [charListLt] at h1 h2 ⊢
        rcases Nat.lt_trichotomy x.toNat y.toNat with hxy | hxy | hxy
        · rcases Nat.lt_trichotomy y.toNat z.toNat with hyz | hyz | hyz
          · have hxz : x.toNat < z.toNat := by omega
            simp [hxz]
          · have hxz : x.toNat < z.toNat := by omega
            simp [hxz]
          · simp [show ¬y.toNat < z.toNat by omega, hyz] at h2
        · rcases Nat.lt_trichotomy y.toNat z.toNat with hyz | hyz | hyz
          · have hxz : x.toNat < z.toNat := by omega
            simp [hxz]
          · have hn1 : ¬x.toNat < y.toNat := by omega
            have hn2 : ¬y.toNat < x.toNat := by omega
            have hn3 : ¬y.toNat < z.toNat := by omega
            have hn4 : ¬z.toNat < y.toNat := by omega
            have hn5 : ¬x.toNat < z.toNat := by omega
            have hn6 : ¬z.toNat < x.toNat := by omega
            simp only [hn1, hn2, if_false] at h1
            simp only [hn3, hn4, if_false] at h2
            simp only [hn5, hn6, if_false]
            exact ih h1 h2
          · simp [show ¬y.toNat < z.toNat by omega, hyz] at h2
        · simp [show ¬x.toNat < y.toNat by omega, hxy] at h1

theorem charListLt_connex {a b : List Char} (h1 : charListLt a b = false)
    (h2 : charListLt b a = false) : a = b := by
  induction a generalizing b with
  | nil =>
    cases b with
    | nil => rfl
    | cons y bs => exact absurd h1 (by simp [charListLt])
  | cons x as ih =>
    cases b with
    | nil => exact absurd h2 (by simp [charListLt])
    | cons y bs =>
      simp only [charListLt] at h1 h2
      rcases Nat.lt_trichotomy x.toNat y.toNat with hxy | hxy | hxy
      · simp [hxy] at h1
      · have hn1 : ¬x.toNat < y.toNat := by omega
        have hn2 : ¬y.toNat < x.toNat := by omega
        simp only [hn1, hn2, if_false] at h1 h2
        have hx : x = y := Char.ext (UInt32.toNat.inj hxy)
        rw [hx, ih h1 h2]
      · simp [hxy] at h2

theorem pyStrLt_irrefl (a : String) : pyStrLt a a = false :=
  charListLt_irrefl a.data

theorem pyStrLt_trans {a b c : String} (h1 : pyStrLt a b = true)
    (h2 : pyStrLt b c = true) : pyStrLt a c = true :=
  charListLt_trans h1 h2

theorem pyStrLt_asymm {a b : String} (h1 : pyStrLt a b = true) :
    pyStrLt b a = false := by
  by_contra h
  have h2 : pyStrLt b a = true := by
    cases hh : pyStrLt b a with
    | true => rfl
    | false => exact absurd hh h
  have := pyStrLt_trans h1 h2
  rw [pyStrLt_irrefl a] at this
  exact Bool.false_ne_true this

theorem pyStr_connex {a b : String} (h1 : pyStrLt a b = false)
    (h2 : pyStrLt b a = false) : a = b :=
  String.ext (charListLt_connex h1 h2)

theorem pyLe_of_lt {a b : String} (h : pyStrLt a b = true) : pyLe a b := by
  simp [pyLe, pyStrLe, h]

theorem pyLe_refl (a : String) : pyLe a a := by
  simp [pyLe, pyStrLe]

theorem pyLe_iff {a b : String} : pyLe a b ↔ pyStrLt a b = true ∨ a = b := by
  constructor
  · intro h
    rcases Bool.or_eq_true_iff.mp h with h | h
    · exact Or.inl h
    · exact Or.inr (beq_iff_eq.mp h)
  · rintro (h | rfl)
    · exact pyLe_of_lt h
    · exact pyLe_refl a

theorem pyLt_of_le_ne {a b : String} (h : pyLe a b) (hne : a ≠ b) :
    pyStrLt a b = true := by
  rcases pyLe_iff.mp h with h | h
  · exact h
  · exact absurd h hne

instance : IsTotal String pyLe := by
  constructor
  intro a b
  cases h1 : pyStrLt a b with
  | true => exact Or.inl (pyLe_of_lt h1)
  | false =>
    cases h2 : pyStrLt b a with
    | true => exact Or.inr (pyLe_of_lt h2)
    | false => exact Or.inl (pyLe_iff.mpr (Or.inr (pyStr_connex h1 h2)))

instance : IsTrans String pyLe := by
  constructor
  intro a b c h1 h2
  rcases pyLe_iff.mp h1 with h1 | rfl
  · rcases pyLe_iff.mp h2 with h2 | rfl
    · exact pyLe_of_lt (pyStrLt_trans h1 h2)
    · exact pyLe_of_lt h1
  · exact h2

instance : IsAntisymm String pyLe := by
  constructor
  intro a b h1 h2
  rcases pyLe_iff.mp h1 with h1 | rfl
  · rcases pyLe_iff.mp h2 with h2 | rfl
    · exact absurd h2 (by simp [pyStrLt_asymm h1])
    · rfl
  · rfl

instance : IsTotal OSVariant byKeyLe := by
  constructor
  intro a b
  exact total_of pyLe (effKey a) (effKey b)

instance : IsTrans OSVariant byKeyLe := by
  constructor
  intro a b c h1 h2
  exact Trans.trans (r := pyLe) (s := pyLe) h1 h2

instance : IsAntisymm OSVariant byKeyLt := by
  constructor
  intro a b h1 h2
  exact absurd h2 (by simp [byKeyLt, pyLt, pyStrLt_asymm h1])

/-! ### Association-list (dict) lemmas -/

theorem lookup_append {α : Type} (m m2 : List (String × α)) (k : String) :
    List.lookup k (m ++ m2) =
      match List.lookup k m with
      | some v => some v
      | none => List.lookup k m2 := by
  induction m with
  | nil => simp
  | cons p t ih =>
    obtain ⟨k1, v1⟩ := p
    by_cases hk : k = k1
    · simp [List.lookup_cons, hk]
    · simp only [List.cons_append, List.lookup_cons, beq_eq_false_iff_ne.mpr hk]
      exact ih

theorem lookup_eq_none_of_not_mem {α : Type} {m : List (String × α)} {k : String}
    (h : k ∉ m.map Prod.fst) : List.lookup k m = none := by
  induction m with
  | nil => rfl
  | cons p t ih =>
    obtain ⟨k1, v1⟩ := p
    simp only [List.map_cons, List.mem_cons, not_or] at h
    simp only [List.lookup_cons, beq_eq_false_iff_ne.mpr h.1]
    exact ih h.2

theorem mem_of_lookup_some {α : Type} {m : List (String × α)} {k : String} {v : α}
    (h : List.lookup k m = some v) : k ∈ m.map Prod.fst := by
  by_contra hmem
  rw [lookup_eq_none_of_not_mem hmem] at h
  exact Option.noConfusion h

theorem not_mem_of_lookup_none {α : Type} {m : List (String × α)} {k : String}
    (h : List.lookup k m = none) : k ∉ m.map Prod.fst := by
  induction m with
  | nil => simp
  | cons p t ih =>
    obtain ⟨k1, v1⟩ := p
    simp only [List.lookup_cons] at h
    by_cases hk : k = k1
    · simp [hk, beq_iff_eq] at h
    · simp only [beq_eq_false_iff_ne.mpr hk] at h
      simp only [List.map_cons, List.mem_cons, not_or]
      exact ⟨hk, ih h⟩

theorem upsert_of_not_mem {α : Type} {m : List (String × α)} {k : String} (v : α)
    (h : k ∉ m.map Prod.fst) : upsert m k v = m ++ [(k, v)] := by
  unfold upsert
  have hany : m.any (fun p => p.1 == k) = false := by
    simp only [List.any_eq_false]
    intro p hp
    simp only [beq_iff_eq]
    intro hk
    exact h (hk ▸ List.mem_map_of_mem Prod.fst hp)
  simp [hany]

theorem upsert_keys_of_mem {α : Type} {m : List (String × α)} {k : String} (v : α)
    (h : k ∈ m.map Prod.fst) : (upsert m k v).map Prod.fst = m.map Prod.fst := by
  unfold upsert
  have hany : m.any (fun p => p.1 == k) = true := by
    simp only [List.any_eq_true]
    obtain ⟨p, hp, hfst⟩ := List.mem_map.mp h
    exact ⟨p, hp, beq_iff_eq.mpr hfst⟩
  simp only [hany, if_true, List.map_map]
  apply List.map_congr_left
  intro p _
  by_cases hk : p.1 = k
  · simp [Function.comp, beq_iff_eq.mpr hk, hk]
  · simp [Function.comp, beq_eq_false_iff_ne.mpr hk]

theorem lookup_map_replace {α : Type} (m : List (String × α)) (k : String) (v : α) :
    List.lookup k (m.map (fun p => if p.1 == k then (k, v) else p)) =
      match List.lookup k m with
      | some _ => some v
      | none => none := by
  induction m with
  | nil => simp
  | cons p t ih =>
    obtain ⟨k1, v1⟩ := p
    by_cases hk : k1 = k
    · subst hk
      simp [List.lookup_cons]
    · have h1 : (k1 == k) = false := beq_eq_false_iff_ne.mpr hk
      have h2 : (k == k1) = false := beq_eq_false_iff_ne.mpr (Ne.symm hk)
      simp only [List.map_cons, h1, Bool.false_eq_true, if_false, List.lookup_cons, h2]
      exact ih

theorem lookup_upsert {α : Type} (m : List (String × α)) (k : String) (v : α)
    (h : k ∈ m.map Prod.fst) : List.lookup k (upsert m k v) = some v := by
  unfold upsert
  have hany : m.any (fun p => p.1 == k) = true := by
    simp only [List.any_eq_true]
    obtain ⟨p, hp, hfst⟩ := List.mem_map.mp h
    exact ⟨p, hp, beq_iff_eq.mpr hfst⟩
  rw [if_pos hany, lookup_map_replace]
  obtain ⟨v0, hv0⟩ : ∃ v0, List.lookup k m = some v0 := by
    cases hl : List.lookup k m with
    | none => exact absurd h (not_mem_of_lookup_none hl)
    | some v0 => exact ⟨v0, rfl⟩
  simp [hv0]

theorem lookup_map_replace_ne {α : Type} (m : List (String × α)) {k k2 : String}
    (v : α) (h : k2 ≠ k) :
    List.lookup k2 (m.map (fun p => if p.1 == k then (k, v) else p)) =
      List.lookup k2 m := by
  induction m with
  | nil => rfl
  | cons p t ih =>
    obtain ⟨k1, v1⟩ := p
    by_cases hk : k1 = k
    · subst hk
      have h2 : (k2 == k1) = false := beq_eq_false_iff_ne.mpr h
      simp only [List.map_cons, beq_self_eq_true, if_true, List.lookup_cons, h2]
      exact ih
    · have h1 : (k1 == k) = false := beq_eq_false_iff_ne.mpr hk
      by_cases hk2 : k2 = k1
      · subst hk2
        rw [List.map_cons, if_neg (show ¬((k2 == k) = true) by simp [h1])]
        simp [List.lookup_cons]
      · have h2 : (k2 == k1) = false := beq_eq_false_iff_ne.mpr hk2
        simp only [List.map_cons, h1, Bool.false_eq_true, if_false, List.lookup_cons, h2]
        exact ih

theorem lookup_upsert_ne {α : Type} (m : List (String × α)) {k k2 : String} (v : α)
    (h : k2 ≠ k) : List.lookup k2 (upsert m k v) = List.lookup k2 m := by
  unfold upsert
  split_ifs with hany
  · exact lookup_map_replace_ne m v h
  · rw [lookup_append]
    cases hl : List.lookup k2 m with
    | some v0 => rfl
    | none => simp [List.lookup_cons, beq_eq_false_iff_ne.mpr h]

/-! ### Characterisation of the two maps built by the first loop of `_sort` -/

theorem foldl_buildStep_fst (l : List OSVariant)
    (acc : List (String × String) × List (String × List String))
    (hfresh : ∀ r ∈ l, effKey r ∉ acc.1.map Prod.fst)
    (hk : (l.map effKey).Nodup) :
    (l.foldl buildStep acc).1 = acc.1 ++ l.map (fun r => (effKey r, r.name)) := by
  induction l generalizing acc with
  | nil => simp
  | cons a t ih =>
    simp only [List.map_cons, List.nodup_cons] at hk
    have hstep : (buildStep acc a).1 = acc.1 ++ [(effKey a, a.name)] := by
      simp only [buildStep]
      exact upsert_of_not_mem _ (hfresh a (List.mem_cons_self a t))
    have hfresh2 : ∀ r ∈ t, effKey r ∉ (buildStep acc a).1.map Prod.fst := by
      intro r hr
      rw [hstep]
      simp only [List.map_append, List.mem_append, List.map_cons, List.map_nil,
        List.mem_singleton, not_or]
      refine ⟨hfresh r (List.mem_cons_of_mem a hr), ?_⟩
      intro hkey
      exact hk.1 (hkey ▸ List.mem_map_of_mem effKey hr)
    rw [List.foldl_cons, ih (buildStep acc a) hfresh2 hk.2, hstep, List.append_assoc]
    rfl

theorem foldl_buildStep_snd_keys (l : List OSVariant)
    (acc : List (String × String) × List (String × List String)) (d : String) :
    d ∈ (l.foldl buildStep acc).2.map Prod.fst ↔
      d ∈ acc.2.map Prod.fst ∨ d ∈ l.map effFamily := by
  induction l generalizing acc with
  | nil => simp
  | cons a t ih =>
    rw [List.foldl_cons, ih]
    have hkeys : ((buildStep acc a).2.map Prod.fst = acc.2.map Prod.fst ∧
          effFamily a ∈ acc.2.map Prod.fst) ∨
        (buildStep acc a).2.map Prod.fst = acc.2.map Prod.fst ++ [effFamily a] := by
      simp only [buildStep]
      cases hl : List.lookup (effFamily a) acc.2 with
      | none => right; simp
      | some g =>
        left
        exact ⟨upsert_keys_of_mem _ (mem_of_lookup_some hl), mem_of_lookup_some hl⟩
    have hmem : d ∈ (buildStep acc a).2.map Prod.fst ↔
        d ∈ acc.2.map Prod.fst ∨ d = effFamily a := by
      rcases hkeys with ⟨hk1, hk2⟩ | hk1
      · rw [hk1]
        constructor
        · exact Or.inl
        · rintro (h | rfl)
          · exact h
          · exact hk2
      · rw [hk1]
        simp [List.mem_append]
    rw [hmem]
    simp only [List.map_cons, List.mem_cons]
    tauto

theorem foldl_buildStep_snd_nodup (l : List OSVariant)
    (acc : List (String × String) × List (String × List String))
    (hacc : (acc.2.map Prod.fst).Nodup) :
    ((l.foldl buildStep acc).2.map Prod.fst).Nodup := by
  induction l generalizing acc with
  | nil => exact hacc
  | cons a t ih =>
    rw [List.foldl_cons]
    apply ih
    simp only [buildStep]
    cases hl : List.lookup (effFamily a) acc.2 with
    | some g =>
      rw [upsert_keys_of_mem _ (mem_of_lookup_some hl)]
      exact hacc
    | none =>
      rw [List.map_append]
      refine List.nodup_append.mpr ⟨hacc, List.nodup_singleton _, ?_⟩
      intro x hx
      simp only [List.map_cons, List.map_nil, List.mem_singleton]
      intro hxa
      exact (not_mem_of_lookup_none hl) (hxa ▸ hx)

theorem foldl_buildStep_snd_lookup (l : List OSVariant)
    (acc : List (String × String) × List (String × List String)) (d : String) :
    List.lookup d (l.foldl buildStep acc).2 =
      match List.lookup d acc.2 with
      | some g => some (g ++ (l.filter (fun r => effFamily r == d)).map effKey)
      | none =>
        if (l.filter (fun r => effFamily r == d)).isEmpty then none
        else some ((l.filter (fun r => effFamily r == d)).map effKey) := by
  induction l generalizing acc with
  | nil =>
    cases h : List.lookup d acc.2 with
    | none => simp [h]
    | some g => simp [h]
  | cons a t ih =>
    rw [List.foldl_cons, ih]
    by_cases hfam : effFamily a = d
    · subst hfam
      have hfilter : (a :: t).filter (fun r => effFamily r == effFamily a) =
          a :: t.filter (fun r => effFamily r == effFamily a) := by
        simp [List.filter_cons]
      cases hl : List.lookup (effFamily a) acc.2 with
      | some g =>
        have hstep : List.lookup (effFamily a) (buildStep acc a).2 =
            some (g ++ [effKey a]) := by
          simp only [buildStep, hl]
          exact lookup_upsert _ _ _ (mem_of_lookup_some hl)
        rw [hstep, hfilter]
        simp [List.append_assoc]
      | none =>
        have hstep : List.lookup (effFamily a) (buildStep acc a).2 =
            some [effKey a] := by
          simp only [buildStep, hl]
          rw [lookup_append, lookup_eq_none_of_not_mem (not_mem_of_lookup_none hl)]
          simp [List.lookup_cons]
        rw [hstep, hfilter]
        simp
    · have hfilter : (a :: t).filter (fun r => effFamily r == d) =
          t.filter (fun r => effFamily r == d) := by
        simp [List.filter_cons, beq_eq_false_iff_ne.mpr hfam]
      have hstep : List.lookup d (buildStep acc a).2 = List.lookup d acc.2 := by
        simp only [buildStep]
        cases hl : List.lookup (effFamily a) acc.2 with
        | some g => exact lookup_upsert_ne _ _ (Ne.symm hfam)
        | none =>
          rw [lookup_append]
          cases hl2 : List.lookup d acc.2 with
          | some v0 => rfl
          | none => simp [List.lookup_cons, beq_eq_false_iff_ne.mpr (Ne.symm hfam)]
      rw [hstep, hfilter]

theorem buildMaps_fst {l : List OSVariant} (hk : (l.map effKey).Nodup) :
    (buildMaps l).1 = l.map (fun r => (effKey r, r.name)) := by
  have h := foldl_buildStep_fst l ([], []) (by simp) hk
  simpa [buildMaps] using h

theorem buildMaps_snd_keys (l : List OSVariant) (d : String) :
    d ∈ (buildMaps l).2.map Prod.fst ↔ d ∈ l.map effFamily := by
  have h := foldl_buildStep_snd_keys l ([], []) d
  simpa [buildMaps] using h

theorem buildMaps_snd_nodup (l : List OSVariant) :
    ((buildMaps l).2.map Prod.fst).Nodup := by
  have h := foldl_buildStep_snd_nodup l ([], []) (by simp)
  simpa [buildMaps] using h

theorem buildMaps_snd_lookup (l : List OSVariant) (d : String) :
    List.lookup d (buildMaps l).2 =
      if (l.filter (fun r => effFamily r == d)).isEmpty then none
      else some ((l.filter (fun r => effFamily r == d)).map effKey) := by
  have h := foldl_buildStep_snd_lookup l ([], []) d
  simpa [buildMaps] using h

/-! ### Sorting and lookup helpers -/

theorem sortStr_sorted (X : List String) : List.Sorted pyLe (sortStr X) :=
  List.sorted_insertionSort pyLe X

theorem sortStr_perm (X : List String) : (sortStr X).Perm X :=
  List.perm_insertionSort pyLe X

theorem sortStr_eq_of_perm {X Y : List String} (h : X.Perm Y) : sortStr X = sortStr Y :=
  List.eq_of_perm_of_sorted ((sortStr_perm X).trans (h.trans (sortStr_perm Y).symm))
    (sortStr_sorted X) (sortStr_sorted Y)

theorem groupAsc_sorted (l : List OSVariant) (d : String) :
    List.Sorted byKeyLe (groupAsc l d) :=
  List.sorted_insertionSort byKeyLe _

theorem groupAsc_perm (l : List OSVariant) (d : String) :
    (groupAsc l d).Perm (l.filter (fun r => effFamily r == d)) :=
  List.perm_insertionSort byKeyLe _

theorem sortStr_map_effKey (G : List OSVariant) :
    sortStr (G.map effKey) = (List.insertionSort byKeyLe G).map effKey := by
  apply List.eq_of_perm_of_sorted (r := pyLe)
  · exact (sortStr_perm _).trans ((List.perm_insertionSort byKeyLe G).map effKey).symm
  · exact sortStr_sorted _
  · exact List.pairwise_map.mpr (List.sorted_insertionSort byKeyLe G)

theorem lookup_keyPairs {l : List OSVariant} (hk : (l.map effKey).Nodup)
    {r : OSVariant} (hr : r ∈ l) :
    List.lookup (effKey r) (l.map (fun x => (effKey x, x.name))) = some r.name := by
  induction l with
  | nil => cases hr
  | cons a t ih =>
    have hk2 : (t.map effKey).Nodup := by
      simp only [List.map_cons, List.nodup_cons] at hk
      exact hk.2
    rcases List.mem_cons.mp hr with rfl | hr2
    · simp [List.lookup_cons]
    · have hne : effKey r ≠ effKey a := by
        simp only [List.map_cons, List.nodup_cons] at hk
        intro hh
        exact hk.1 (hh ▸ List.mem_map_of_mem effKey hr2)
      simp only [List.map_cons, List.lookup_cons, beq_eq_false_iff_ne.mpr hne]
      exact ih hk2 hr2

theorem find?_name {l : List OSVariant} (hn : (l.map OSVariant.name).Nodup)
    {r : OSVariant} (hr : r ∈ l) :
    l.find? (fun x => x.name == r.name) = some r := by
  induction l with
  | nil => cases hr
  | cons a t ih =>
    have hn2 : (t.map OSVariant.name).Nodup := by
      simp only [List.map_cons, List.nodup_cons] at hn
      exact hn.2
    rcases List.mem_cons.mp hr with rfl | hr2
    · simp [List.find?]
    · have hne : a.name ≠ r.name := by
        simp only [List.map_cons, List.nodup_cons] at hn
        intro hh
        exact hn.1 (hh ▸ List.mem_map_of_mem OSVariant.name hr2)
      rw [List.find?_cons_of_neg _ (by simp [hne])]
      exact ih hn2 hr2

theorem filterMap_map_eq_self {α β : Type} (f : α → β) (h : β → Option α)
    (X : List α) (hx : ∀ x ∈ X, h (f x) = some x) : (X.map f).filterMap h = X := by
  induction X with
  | nil => rfl
  | cons a t ih =>
    simp only [List.map_cons, List.filterMap_cons, hx a (List.mem_cons_self a t)]
    rw [ih (fun x hxt => hx x (List.mem_cons_of_mem a hxt))]

/-! ### The preference pull -/

theorem foldl_pull_perm (ps : List String) (acc : List String) :
    (ps.foldl (fun acc2 p => if p ∈ acc2 then p :: acc2.erase p else acc2) acc).Perm
      acc := by
  induction ps generalizing acc with
  | nil => exact List.Perm.refl acc
  | cons q qs ih =>
    rw [List.foldl_cons]
    refine (ih _).trans ?_
    by_cases hq : q ∈ acc
    · rw [if_pos hq]
      exact (List.perm_cons_erase hq).symm
    · rw [if_neg hq]

theorem applyPref_perm (L sortpref : List String) : (applyPref L sortpref).Perm L :=
  foldl_pull_perm sortpref.reverse L

theorem applyPref_step (L : List String) (q : String) (ps : List String) :
    applyPref L (q :: ps) =
      if q ∈ applyPref L ps then q :: (applyPref L ps).erase q else applyPref L ps := by
  unfold applyPref
  rw [List.reverse_cons, List.foldl_append, List.foldl_cons, List.foldl_nil]

theorem applyPref_claim {L sortpref : List String} (hL : L.Nodup)
    (hp : sortpref.Nodup) :
    applyPref L sortpref =
      sortpref.filter (fun p => decide (p ∈ L)) ++
        L.filter (fun d => decide (d ∉ sortpref)) := by
  induction sortpref with
  | nil => simp [applyPref]
  | cons q ps ih =>
    have hqps : q ∉ ps := (List.nodup_cons.mp hp).1
    have hps : ps.Nodup := (List.nodup_cons.mp hp).2
    rw [applyPref_step, ih hps]
    by_cases hqL : q ∈ L
    · have hqA : q ∈ ps.filter (fun p => decide (p ∈ L)) ++
          L.filter (fun d => decide (d ∉ ps)) := by
        apply List.mem_append_right
        exact List.mem_filter.mpr ⟨hqL, by simp [hqps]⟩
      rw [if_pos hqA]
      have hqnotfirst : q ∉ ps.filter (fun p => decide (p ∈ L)) := fun hh =>
        hqps (List.mem_of_mem_filter hh)
      rw [List.erase_append_right _ hqnotfirst]
      have hLf : (L.filter (fun d => decide (d ∉ ps))).Nodup := hL.filter _
      rw [hLf.erase_eq_filter q, List.filter_filter]
      have h1 : (q :: ps).filter (fun p => decide (p ∈ L)) =
          q :: ps.filter (fun p => decide (p ∈ L)) := by
        simp [List.filter_cons, hqL]
      have h2 : L.filter (fun x => (x != q) && decide (x ∉ ps)) =
          L.filter (fun d => decide (d ∉ q :: ps)) := by
        apply List.filter_congr
        intro x _
        by_cases hxq : x = q
        · simp [hxq]
        · simp [hxq, List.mem_cons]
      rw [h2, h1, List.cons_append]
    · have hqA : q ∉ ps.filter (fun p => decide (p ∈ L)) ++
          L.filter (fun d => decide (d ∉ ps)) := by
        intro hh
        rcases List.mem_append.mp hh with hh | hh
        · exact hqL (by simpa using (List.mem_filter.mp hh).2)
        · exact hqL (List.mem_of_mem_filter hh)
      rw [if_neg hqA]
      have h1 : (q :: ps).filter (fun p => decide (p ∈ L)) =
          ps.filter (fun p => decide (p ∈ L)) := by
        simp [List.filter_cons, hqL]
      have h2 : L.filter (fun d => decide (d ∉ q :: ps)) =
          L.filter (fun d => decide (d ∉ ps)) := by
        apply List.filter_congr
        intro x hx
        have hxq : x ≠ q := fun hh => hqL (hh ▸ hx)
        simp [hxq, List.mem_cons]
      rw [h1, h2]

/-! ### Partition of a record list by family -/

theorem flatMap_congr2 {α β : Type} {ds : List α} {f g : α → List β}
    (h : ∀ d ∈ ds, f d = g d) : ds.flatMap f = ds.flatMap g := by
  induction ds with
  | nil => rfl
  | cons d t ih =>
    rw [List.flatMap_cons, List.flatMap_cons, h d (List.mem_cons_self d t),
      ih (fun e he => h e (List.mem_cons_of_mem d he))]

theorem flatMap_filter_perm (ds : List String) (l : List OSVariant)
    (hnd : ds.Nodup) (hcov : ∀ r ∈ l, effFamily r ∈ ds) :
    (ds.flatMap (fun d => l.filter (fun r => effFamily r == d))).Perm l := by
  induction ds generalizing l with
  | nil =>
    have hl : l = [] := by
      cases l with
      | nil => rfl
      | cons a t => exact absurd (hcov a (List.mem_cons_self a t)) (List.not_mem_nil _)
    rw [hl]
    exact List.Perm.refl _
  | cons d ds ih =>
    rw [List.flatMap_cons]
    have hdds : d ∉ ds := (List.nodup_cons.mp hnd).1
    have hnd2 : ds.Nodup := (List.nodup_cons.mp hnd).2
    have htail : ds.flatMap (fun e => l.filter (fun r => effFamily r == e)) =
        ds.flatMap (fun e =>
          (l.filter (fun r => !(effFamily r == d))).filter
            (fun r => effFamily r == e)) := by
      apply flatMap_congr2
      intro e he
      rw [List.filter_filter]
      apply List.filter_congr
      intro r _
      have hed : e ≠ d := fun hh => hdds (hh ▸ he)
      by_cases hre : effFamily r = e
      · have hrd : effFamily r ≠ d := fun hh => hed (hre.symm.trans hh)
        simp [hre, hrd, hed]
      · simp [hre]
    rw [htail]
    have hcov2 : ∀ r ∈ l.filter (fun r => !(effFamily r == d)), effFamily r ∈ ds := by
      intro r hr
      obtain ⟨hrl, hrd⟩ := List.mem_filter.mp hr
      rcases List.mem_cons.mp (hcov r hrl) with hh | hh
      · exact absurd (beq_iff_eq.mpr hh) (by simpa using hrd)
      · exact hh
    refine ((List.Perm.refl _).append (ih _ hnd2 hcov2)).trans ?_
    exact List.filter_append_perm _ l

/-! ### The master characterisation of `_sort` -/

theorem sort_eq_canon (l : List OSVariant) (pref : List String)
    (hn : (l.map OSVariant.name).Nodup) (hk : (l.map effKey).Nodup) :
    _sort l pref = canonSort l pref := by
  have hfams : sortStr ((buildMaps l).2.map Prod.fst) = famsOf l := by
    apply sortStr_eq_of_perm
    apply (List.perm_ext_iff_of_nodup (buildMaps_snd_nodup l) (List.nodup_dedup _)).mpr
    intro d
    rw [buildMaps_snd_keys, List.mem_dedup]
  simp only [_sort, canonSort, hfams]
  apply flatMap_congr2
  intro d hd
  have hdl : d ∈ l.map effFamily := by
    have h1 : d ∈ famsOf l := ((applyPref_perm _ _).mem_iff).mp hd
    have h2 := (sortStr_perm (l.map effFamily).dedup).mem_iff.mp h1
    exact List.mem_dedup.mp h2
  have hne : ((l.filter (fun r => effFamily r == d)).isEmpty) = false := by
    obtain ⟨r, hr, hrd⟩ := List.mem_map.mp hdl
    have hmem : r ∈ l.filter (fun r => effFamily r == d) :=
      List.mem_filter.mpr ⟨hr, beq_iff_eq.mpr hrd⟩
    cases hh : (l.filter (fun r => effFamily r == d)) with
    | nil => rw [hh] at hmem; cases hmem
    | cons x t => simp [List.isEmpty]
  rw [buildMaps_snd_lookup, if_neg (by simp [hne])]
  show ((sortStr ((l.filter (fun r => effFamily r == d)).map effKey)).reverse).filterMap _ =
    groupDesc l d
  rw [sortStr_map_effKey, ← List.map_reverse]
  unfold groupDesc groupAsc
  apply filterMap_map_eq_self
  intro x hx
  have hxl : x ∈ l := by
    have h1 : x ∈ List.insertionSort byKeyLe (l.filter (fun r => effFamily r == d)) :=
      List.mem_reverse.mp hx
    exact List.mem_of_mem_filter
      ((List.perm_insertionSort byKeyLe _).mem_iff.mp h1)
  rw [buildMaps_fst hk, lookup_keyPairs hk hxl]
  show l.find? (fun r => r.name == x.name) = some x
  exact find?_name hn hxl

/-! ### The sort permutes its input (under distinct effective keys) -/

theorem flatMap_perm_pointwise {α β : Type} {ds : List α} {f g : α → List β}
    (h : ∀ d ∈ ds, (f d).Perm (g d)) : (ds.flatMap f).Perm (ds.flatMap g) := by
  induction ds with
  | nil => exact List.Perm.refl _
  | cons d t ih =>
    rw [List.flatMap_cons, List.flatMap_cons]
    exact (h d (List.mem_cons_self d t)).append
      (ih (fun e he => h e (List.mem_cons_of_mem d he)))

theorem famsOf_nodup (l : List OSVariant) : (famsOf l).Nodup :=
  (sortStr_perm _).symm.nodup (List.nodup_dedup _)

theorem mem_famsOf {l : List OSVariant} {d : String} :
    d ∈ famsOf l ↔ d ∈ l.map effFamily := by
  rw [famsOf]
  rw [(sortStr_perm _).mem_iff, List.mem_dedup]

theorem sort_perm (l : List OSVariant) (pref : List String)
    (hn : (l.map OSVariant.name).Nodup) (hk : (l.map effKey).Nodup) :
    (_sort l pref).Perm l := by
  rw [sort_eq_canon l pref hn hk]
  unfold canonSort
  have hnodup : (applyPref (famsOf l) pref).Nodup :=
    (applyPref_perm _ _).symm.nodup (famsOf_nodup l)
  have hcov : ∀ r ∈ l, effFamily r ∈ applyPref (famsOf l) pref := by
    intro r hr
    exact (applyPref_perm _ _).symm.mem_iff.mp
      (mem_famsOf.mpr (List.mem_map_of_mem effFamily hr))
  refine (flatMap_perm_pointwise ?_).trans
    (flatMap_filter_perm (applyPref (famsOf l) pref) l hnodup hcov)
  intro d _
  exact (List.reverse_perm _).trans (groupAsc_perm l d)

/-! ### Invariance of the canonical sort under permutation of the input -/

theorem insertionSort_byKey_eq_of_perm {X Y : List OSVariant} (h : X.Perm Y)
    (hkX : (X.map effKey).Nodup) :
    List.insertionSort byKeyLe X = List.insertionSort byKeyLe Y := by
  have hkSX : ((List.insertionSort byKeyLe X).map effKey).Nodup :=
    ((List.perm_insertionSort byKeyLe X).map effKey).symm.nodup hkX
  have hkSY : ((List.insertionSort byKeyLe Y).map effKey).Nodup :=
    ((List.perm_insertionSort byKeyLe Y).map effKey).symm.nodup ((h.map effKey).nodup hkX)
  apply List.eq_of_perm_of_sorted (r := byKeyLt)
  · exact (List.perm_insertionSort _ X).trans (h.trans (List.perm_insertionSort _ Y).symm)
  · exact ((List.sorted_insertionSort byKeyLe X).and
      (List.pairwise_map.mp hkSX)).imp
      (fun hab => pyLt_of_le_ne hab.1 hab.2)
  · exact ((List.sorted_insertionSort byKeyLe Y).and
      (List.pairwise_map.mp hkSY)).imp
      (fun hab => pyLt_of_le_ne hab.1 hab.2)

theorem canonSort_eq_of_perm {X Y : List OSVariant} (h : X.Perm Y)
    (hkX : (X.map effKey).Nodup) (pref : List String) :
    canonSort X pref = canonSort Y pref := by
  have hfams : famsOf X = famsOf Y := sortStr_eq_of_perm (h.map effFamily).dedup
  unfold canonSort
  rw [hfams]
  apply flatMap_congr2
  intro d _
  unfold groupDesc groupAsc
  rw [insertionSort_byKey_eq_of_perm (h.filter _)
    (List.Nodup.sublist ((List.filter_sublist X).map effKey) hkX)]

/-! ### Splitting the family order into real families and the sentinel -/

theorem effFamily_eq_getD (r : OSVariant) :
    effFamily r = (realFam r).getD "zzzzzzz" := by
  unfold effFamily realFam
  cases r.distro with
  | sentinel => rfl
  | base v =>
    cases v with
    | vnone => rfl
    | vbool b => rfl
    | vstr s =>
      by_cases hs : s = ""
      · simp [hs]
      · simp [hs]
  | check cs => rfl

theorem mem_realFamilies {l : List OSVariant} {d : String} :
    d ∈ realFamilies l ↔ ∃ r ∈ l, realFam r = some d := by
  rw [realFamilies, (sortStr_perm _).mem_iff, List.mem_dedup, List.mem_filterMap]

theorem realFamilies_nodup (l : List OSVariant) : (realFamilies l).Nodup :=
  (sortStr_perm _).symm.nodup (List.nodup_dedup _)

theorem famsOf_split (l : List OSVariant)
    (hreal : ∀ r ∈ l, ∀ s, realFam r = some s → pyStrLt s "zzzzzzz" = true) :
    famsOf l = realFamilies l ++
      (if "zzzzzzz" ∈ l.map effFamily then ["zzzzzzz"] else []) := by
  have hzreal : "zzzzzzz" ∉ realFamilies l := by
    intro hz
    obtain ⟨r, hr, hrf⟩ := mem_realFamilies.mp hz
    have h1 := hreal r hr _ hrf
    rw [pyStrLt_irrefl] at h1
    exact Bool.false_ne_true h1
  apply List.eq_of_perm_of_sorted (r := pyLe)
  · have hnodup2 : (realFamilies l ++
        (if "zzzzzzz" ∈ l.map effFamily then ["zzzzzzz"] else [])).Nodup := by
      split_ifs with hmem
      · refine List.nodup_append.mpr ⟨realFamilies_nodup l, List.nodup_singleton _, ?_⟩
        intro x hx
        simp only [List.mem_singleton]
        intro hxz
        exact hzreal (hxz ▸ hx)
      · simpa using realFamilies_nodup l
    apply (List.perm_ext_iff_of_nodup (famsOf_nodup l) hnodup2).mpr
    intro d
    rw [mem_famsOf]
    constructor
    · intro hd
      obtain ⟨r, hr, hrd⟩ := List.mem_map.mp hd
      rw [effFamily_eq_getD] at hrd
      cases hrf : realFam r with
      | some s =>
        rw [hrf, Option.getD_some] at hrd
        apply List.mem_append_left
        exact mem_realFamilies.mpr ⟨r, hr, by rw [hrf, hrd]⟩
      | none =>
        rw [hrf, Option.getD_none] at hrd
        apply List.mem_append_right
        rw [if_pos (hrd ▸ hd)]
        simp [hrd]
    · intro hd
      rcases List.mem_append.mp hd with hd | hd
      · obtain ⟨r, hr, hrf⟩ := mem_realFamilies.mp hd
        exact List.mem_map.mpr ⟨r, hr, by rw [effFamily_eq_getD, hrf, Option.getD_some]⟩
      · split_ifs at hd with hmem
        · rw [List.mem_singleton.mp hd]
          exact hmem
        · cases hd
  · exact sortStr_sorted _
  · apply List.pairwise_append.mpr
    refine ⟨sortStr_sorted _, ?_, ?_⟩
    · split_ifs
      · exact List.pairwise_singleton _ _
      · exact List.Pairwise.nil
    · intro a ha b hb
      split_ifs at hb with hmem
      · rw [List.mem_singleton.mp hb]
        obtain ⟨r, hr, hrf⟩ := mem_realFamilies.mp ha
        exact pyLe_of_lt (hreal r hr _ hrf)
      · cases hb

theorem groupDesc_empty {l : List OSVariant} {d : String}
    (h : d ∉ l.map effFamily) : groupDesc l d = [] := by
  unfold groupDesc groupAsc
  have hf : l.filter (fun r => effFamily r == d) = [] := by
    rw [List.filter_eq_nil_iff]
    intro r hr
    simp only [beq_iff_eq]
    intro hh
    exact h (hh ▸ List.mem_map_of_mem effFamily hr)
  rw [hf]
  rfl

theorem canon_eq_claim (l : List OSVariant) (pref : List String)
    (hp : pref.Nodup) (hz : "zzzzzzz" ∉ pref)
    (hreal : ∀ r ∈ l, ∀ s, realFam r = some s → pyStrLt s "zzzzzzz" = true) :
    canonSort l pref = claimSort l pref := by
  unfold canonSort claimSort claimGroupOrder
  rw [applyPref_claim (famsOf_nodup l) hp, famsOf_split l hreal]
  by_cases hmem : "zzzzzzz" ∈ l.map effFamily
  · rw [if_pos hmem]
    have h1 : pref.filter (fun p => decide (p ∈ realFamilies l ++ ["zzzzzzz"])) =
        pref.filter (fun p => decide (p ∈ realFamilies l)) := by
      apply List.filter_congr
      intro p hp2
      have hpz : p ≠ "zzzzzzz" := fun hh => hz (hh ▸ hp2)
      simp [List.mem_append, hpz]
    have h2 : (realFamilies l ++ ["zzzzzzz"]).filter (fun d => decide (d ∉ pref)) =
        (realFamilies l).filter (fun d => decide (d ∉ pref)) ++ ["zzzzzzz"] := by
      rw [List.filter_append]
      congr 1
      simp [hz]
    rw [h1, h2, ← List.append_assoc, List.flatMap_append]
    simp
  · rw [if_neg hmem, groupDesc_empty hmem]
    simp

/-- C1: the listing order is grouped by family with groups ascending by
family name except for the preference pull, the synthetic no-family group
last, and records descending by effective sort key within each group.  As
universally stated the claim is false (see the counterexample); it holds
under the amendments that the records' names and effective sort keys are
duplicate-free, the preference list is duplicate-free and avoids the
sentinel family name, and every real family name sorts strictly before
the sentinel `"zzzzzzz"`. -/
theorem c1_sort_grouping (l : List OSVariant) (pref : List String)
    (hn : (l.map OSVariant.name).Nodup) (hk : (l.map effKey).Nodup)
    (hp : pref.Nodup) (hz : "zzzzzzz" ∉ pref)
    (hreal : ∀ r ∈ l, ∀ s, realFam r = some s → pyStrLt s "zzzzzzz" = true) :
    _sort l pref = claimSort l pref := by
  rw [sort_eq_canon l pref hn hk, canon_eq_claim l pref hp hz hreal]

theorem c1_witness :
    (([w1, w2, w3, w4].map OSVariant.name).Nodup ∧
      ([w1, w2, w3, w4].map effKey).Nodup ∧
      (["fed"] : List String).Nodup ∧
      "zzzzzzz" ∉ (["fed"] : List String) ∧
      (∀ r ∈ [w1, w2, w3, w4], ∀ s, realFam r = some s →
        pyStrLt s "zzzzzzz" = true)) ∧
    _sort [w1, w2, w3, w4] ["fed"] = claimSort [w1, w2, w3, w4] ["fed"] :=
  ⟨⟨by decide, by decide, by decide, by decide, by decide⟩,
    c1_sort_grouping [w1, w2, w3, w4] ["fed"]
      (by decide) (by decide) (by decide) (by decide) (by decide)⟩

/-- A registry containing the real family `"zzzzzzzz"` (which sorts after
the sentinel) and a record with no family: the code puts the synthetic
group first, while the claim as stated demands it last, so the claimed
description of the output fails on this input. -/
theorem c1_counterexample :
    _sort [cxA, cxB] [] = [cxB, cxA] ∧
    claimSort [cxA, cxB] [] = [cxA, cxB] ∧
    _sort [cxA, cxB] [] ≠ claimSort [cxA, cxB] [] := by
  refine ⟨by decide, by decide, by decide⟩

/-- C9: under pairwise distinct effective sort keys (and the registry
invariant that names are unique), the listing is a permutation of the
surviving records. -/
theorem c9_sort_permutation (l : List OSVariant) (pref : List String)
    (hn : (l.map OSVariant.name).Nodup) (hk : (l.map effKey).Nodup) :
    (_sort l pref).Perm l :=
  sort_perm l pref hn hk

theorem c9_witness :
    (([w4, w2, w1].map OSVariant.name).Nodup ∧
      ([w4, w2, w1].map effKey).Nodup) ∧
    (_sort [w4, w2, w1] []).Perm [w4, w2, w1] :=
  ⟨⟨by decide, by decide⟩,
    c9_sort_permutation [w4, w2, w1] [] (by decide) (by decide)⟩

/-- C8: sorting is idempotent.  As universally stated the claim is false
(see the counterexample, which has two records sharing an effective sort
key); it holds under the amendment that the records' names and effective
sort keys are duplicate-free. -/
theorem c8_sort_idempotent (l : List OSVariant) (pref : List String)
    (hn : (l.map OSVariant.name).Nodup) (hk : (l.map effKey).Nodup) :
    _sort (_sort l pref) pref = _sort l pref := by
  have hperm : (_sort l pref).Perm l := sort_perm l pref hn hk
  have hn2 := ((hperm.map OSVariant.name).symm).nodup hn
  have hk2 := ((hperm.map effKey).symm).nodup hk
  rw [sort_eq_canon _ pref hn2 hk2, canonSort_eq_of_perm hperm hk2 pref,
    ← sort_eq_canon l pref hn hk]

theorem c8_witness :
    (([w1, w2, w4].map OSVariant.name).Nodup ∧
      ([w1, w2, w4].map effKey).Nodup) ∧
    _sort (_sort [w1, w2, w4] []) [] = _sort [w1, w2, w4] [] :=
  ⟨⟨by decide, by decide⟩,
    c8_sort_idempotent [w1, w2, w4] [] (by decide) (by decide)⟩

/-- Records `c8x` and `c8y` collide on the effective sort key `"u"`
across two families; the first sort emits `[c8y, c8z, c8y]`, and sorting
that output again yields `[c8z, c8y, c8y]`, so sorting is not idempotent
on every collection of records. -/
theorem c8_counterexample :
    (_sort [c8x, c8z, c8y] []).map OSVariant.name = ["y", "z", "y"] ∧
    (_sort (_sort [c8x, c8z, c8y] []) []).map OSVariant.name = ["z", "y", "y"] ∧
    _sort (_sort [c8x, c8z, c8y] []) [] ≠ _sort [c8x, c8z, c8y] [] := by
  refine ⟨by decide, by decide, by decide⟩

/-! ### The `list_os` filter -/

theorem keepOs_iff (lt : Bool) (tn : Option String) (fv : Option (List String))
    (os : Bool) (r : OSVariant) :
    keepOs lt tn fv os r = true ↔
      (r.is_type = lt ∧
        (match tn with
         | none => True
         | some t => t = "" ∨ t = r.typename) ∧
        (match fv with
         | none => True
         | some L => L = [] ∨ r.name ∈ L) ∧
        (os = true → r.supported.truthy = true)) := by
  rcases tn with _ | t <;> rcases fv with _ | L <;>
    cases hrt : r.is_type <;> cases lt <;> cases os <;>
      simp [keepOs, hrt, List.isEmpty_iff, List.contains, List.elem_iff,
        Decidable.or_iff_not_imp_left]

/-- C5: the surviving records of `list_os` are exactly those matching the
type/typename/name/supported filters.  As stated the claim is false for a
present-but-empty `filtervars` (and for an empty-string `typename`),
both of which are falsy in Python and disable the corresponding filter;
the amended filter conditions below account for that, and the membership
statement also relies on the sort preserving the filtered records
(duplicate-free names and effective sort keys). -/
theorem c5_list_os_filter (reg : Registry) (lt : Bool) (tn : Option String)
    (fv : Option (List String)) (os : Bool) (pref : List String) (r : OSVariant)
    (hn : (reg.map OSVariant.name).Nodup) (hk : (reg.map effKey).Nodup) :
    r ∈ list_os reg lt tn fv os pref ↔
      (r ∈ reg ∧ r.is_type = lt ∧
        (match tn with
         | none => True
         | some t => t = "" ∨ t = r.typename) ∧
        (match fv with
         | none => True
         | some L => L = [] ∨ r.name ∈ L) ∧
        (os = true → r.supported.truthy = true)) := by
  unfold list_os
  have hsub := List.filter_sublist (p := keepOs lt tn fv os) reg
  have hn2 := List.Nodup.sublist (hsub.map OSVariant.name) hn
  have hk2 := List.Nodup.sublist (hsub.map effKey) hk
  rw [(sort_perm _ pref hn2 hk2).mem_iff, List.mem_filter, keepOs_iff]

theorem c5_witness :
    (([typeRec, w1].map OSVariant.name).Nodup ∧
      ([typeRec, w1].map effKey).Nodup) ∧
    w1 ∈ list_os [typeRec, w1] false none none false [] :=
  ⟨⟨by decide, by decide⟩,
    (c5_list_os_filter [typeRec, w1] false none none false [] w1
        (by decide) (by decide)).mpr
      ⟨by decide, by decide, trivial, trivial, by decide⟩⟩

/-- With `filtervars` present but empty, the record is kept even though
its name is not a member of the filter, contradicting the claim that a
present-but-empty name filter keeps no record. -/
theorem c5_counterexample :
    list_os [typeRec] true none (some []) false [] = [typeRec] ∧
    typeRec.name ∉ ([] : List String) := by
  exact ⟨by decide, by simp⟩

/-! ### Variant construction: inheritance -/

/-- C2: every inheritable field left unset by the caller on a variant
record resolves, at construction time, to the already-constructed parent
object's own value for that field (so inheritance chains correctly across
generations: the value comes from the parent object stored in the
registry, not from a re-resolution further up the chain). -/
theorem c2_inheritance (reg : Registry) (a : Args) (pname : String)
    (p : OSVariant) (r : OSVariant)
    (hpar : a.parent = some pname) (hget : regGet reg pname = some p)
    (hok : mkVariant reg a = .ok r) :
    r.typename = p.typename ∧
    (a.distro = .sentinel → r.distro = p.distro) ∧
    (a.supported = .sentinel → r.supported = p.supported) ∧
    (a.three_stage_install = .sentinel →
      r.three_stage_install = p.three_stage_install) ∧
    (a.acpi = .sentinel → r.acpi = p.acpi) ∧
    (a.apic = .sentinel → r.apic = p.apic) ∧
    (a.clock = .sentinel → r.clock = p.clock) ∧
    (a.netmodel = .sentinel → r.netmodel = p.netmodel) ∧
    (a.videomodel = .sentinel → r.videomodel = p.videomodel) ∧
    (a.diskbus = .sentinel → r.diskbus = p.diskbus) ∧
    (a.inputtype = .sentinel → r.inputtype = p.inputtype) ∧
    (a.inputbus = .sentinel → r.inputbus = p.inputbus) := by
  have hit : a.is_type = false := by
    cases hht : a.is_type
    · rfl
    · have herr : mkVariant reg a = .error "OS types must not specify parent" := by
        simp [mkVariant, resolveParent, hht, hpar]
      rw [herr] at hok
      exact Except.noConfusion hok
  have hrp : resolveParent reg a = .ok (some p) := by
    simp [resolveParent, hit, hpar, hget]
  have htn0 : _get_default (some p) (fun q => Val.base (.vstr q.typename))
      (typenameRaw a) .sentinel = .base (.vstr p.typename) := by
    simp [typenameRaw, hit, _get_default]
  simp only [mkVariant, hrp, htn0] at hok
  by_cases hlow : pyLower a.name = a.name
  · rw [if_neg (show ¬(pyLower a.name ≠ a.name) from fun hh => hh hlow)] at hok
    by_cases happ : p.typename ∈ _approved_types
    · rw [if_pos happ] at hok
      simp only [Except.ok.injEq] at hok
      subst hok
      refine ⟨rfl, ?_, ?_, ?_, ?_, ?_, ?_, ?_, ?_, ?_, ?_, ?_⟩ <;>
        (intro h; simp [_get_default, h])
    · rw [if_neg happ] at hok
      exact Except.noConfusion hok
  · rw [if_pos hlow] at hok
    exact Except.noConfusion hok

theorem c2_witness :
    (wheezyArgs.parent = some "debiansqueeze" ∧
      regGet demoReg4 "debiansqueeze" = some squeezeRec ∧
      mkVariant demoReg4 wheezyArgs = .ok wheezyRec ∧
      wheezyArgs.supported = Val.sentinel) ∧
    wheezyRec.supported = squeezeRec.supported ∧
    wheezyRec.supported = Val.base (.vbool true) :=
  ⟨⟨rfl, by decide, by decide, rfl⟩,
    (c2_inheritance demoReg4 wheezyArgs "debiansqueeze" squeezeRec wheezyRec
        rfl (by decide) (by decide)).2.2.1 rfl,
    by decide⟩

/-! ### Variant construction: error conditions -/

/-- C7: constructing an `_OSVariant` fails exactly when at least one of
the five definition errors holds: a type record declares a parent, a
non-type record declares no parent, the declared parent is not
registered, the name differs from its own lowercased form, or the
resolved typename is not a member of the approved closed set
{linux, windows, unix, solaris, other}. -/
theorem c7_construction_errors (reg : Registry) (a : Args) :
    (∃ v, mkVariant reg a = .ok v) ↔
      ¬((a.is_type = true ∧ a.parent ≠ none) ∨
        (a.is_type = false ∧ a.parent = none) ∨
        (∃ pname, a.parent = some pname ∧ regGet reg pname = none) ∨
        pyLower a.name ≠ a.name ∨
        (∀ s, typenameVal reg a = .base (.vstr s) → s ∉ _approved_types)) := by
  cases hit : a.is_type
  · cases hpar : a.parent with
    | none =>
      have herr : mkVariant reg a = .error "Must specify explicit parent" := by
        simp [mkVariant, resolveParent, hit, hpar]
      simp [herr, hit, hpar]
    | some pname =>
      cases hget : regGet reg pname with
      | none =>
        have herr : mkVariant reg a = .error "KeyError" := by
          simp [mkVariant, resolveParent, hit, hpar, hget]
        simp [herr, hit, hpar, hget]
      | some p =>
        have hrp : resolveParent reg a = .ok (some p) := by
          simp [resolveParent, hit, hpar, hget]
        have htn0 : _get_default (some p) (fun q => Val.base (.vstr q.typename))
            (typenameRaw a) .sentinel = .base (.vstr p.typename) := by
          simp [typenameRaw, hit, _get_default]
        have htv : typenameVal reg a = .base (.vstr p.typename) := by
          simp [typenameVal, hrp, htn0]
        simp only [mkVariant, hrp, htn0]
        by_cases hlow : pyLower a.name = a.name
        · rw [if_neg (show ¬(pyLower a.name ≠ a.name) from fun hh => hh hlow)]
          by_cases happ : p.typename ∈ _approved_types
          · rw [if_pos happ]
            simp [hit, hpar, hget, hlow, htv, happ]
          · rw [if_neg happ]
            simp [hit, hpar, hget, hlow, htv, happ]
        · rw [if_pos hlow]
          simp [hit, hpar, hget, hlow]
  · cases hpar : a.parent with
    | some pname =>
      have herr : mkVariant reg a = .error "OS types must not specify parent" := by
        simp [mkVariant, resolveParent, hit, hpar]
      simp [herr, hit, hpar]
    | none =>
      have hrp : resolveParent reg a = .ok none := by
        simp [resolveParent, hit, hpar]
      simp only [mkVariant, hrp]
      by_cases hlow : pyLower a.name = a.name
      · rw [if_neg (show ¬(pyLower a.name ≠ a.name) from fun hh => hh hlow)]
        by_cases hname : a.name = ""
        · have htn0 : _get_default none (fun q => Val.base (.vstr q.typename))
              (typenameRaw a) .sentinel = .sentinel := by
            simp [typenameRaw, hit, hname, _get_default]
          have htv : typenameVal reg a = .sentinel := by
            simp [typenameVal, hrp, htn0]
          simp only [htn0]
          simp [hit, hpar, hlow, htv]
        · have htn0 : _get_default none (fun q => Val.base (.vstr q.typename))
              (typenameRaw a) .sentinel = .base (.vstr a.name) := by
            simp [typenameRaw, hit, hname, _get_default]
          have htv : typenameVal reg a = .base (.vstr a.name) := by
            simp [typenameVal, hrp, htn0]
          simp only [htn0]
          by_cases happ : a.name ∈ _approved_types
          · rw [if_pos happ]
            simp [hit, hpar, hlow, htv, happ]
          · rw [if_neg happ]
            simp [hit, hpar, hlow, htv, happ]
      · rw [if_pos hlow]
        simp [hit, hpar, hlow]

/-! ### Registration under an already-taken name -/

theorem find?_map_replace (reg : Registry) (v : OSVariant) :
    (reg.map (fun r => if r.name == v.name then v else r)).find?
        (fun r => r.name == v.name) =
      match reg.find? (fun r => r.name == v.name) with
      | some _ => some v
      | none => none := by
  induction reg with
  | nil => rfl
  | cons a t ih =>
    by_cases ha : a.name = v.name
    · rw [List.map_cons, if_pos (by simp [ha]),
        List.find?_cons_of_pos _ (by simp),
        List.find?_cons_of_pos _ (by simp [ha])]
    · rw [List.map_cons, if_neg (by simp [ha]),
        List.find?_cons_of_neg _ (by simp [ha]),
        List.find?_cons_of_neg _ (by simp [ha])]
      exact ih

theorem find?_append_none {p : OSVariant → Bool} {l1 : Registry} (l2 : Registry)
    (h : l1.find? p = none) : (l1 ++ l2).find? p = l2.find? p := by
  induction l1 with
  | nil => rfl
  | cons a t ih =>
    by_cases hpa : p a = true
    · rw [List.find?_cons_of_pos _ hpa] at h
      exact Option.noConfusion h
    · rw [List.find?_cons_of_neg _ hpa] at h
      rw [List.cons_append, List.find?_cons_of_neg _ hpa]
      exact ih h

theorem regGet_regSet (reg : Registry) (v : OSVariant) :
    regGet (regSet reg v) v.name = some v := by
  unfold regGet regSet
  split_ifs with hany
  · rw [find?_map_replace]
    obtain ⟨r, hr, hname⟩ := List.any_eq_true.mp hany
    cases hfind : reg.find? (fun r => r.name == v.name) with
    | some r0 => rfl
    | none =>
      have hall := List.find?_eq_none.mp hfind
      exact absurd hname (by simpa using hall r hr)
  · have hnone : reg.find? (fun r => r.name == v.name) = none := by
      rw [List.find?_eq_none]
      intro r hr hh
      exact hany (List.any_eq_true.mpr ⟨r, hr, hh⟩)
    rw [find?_append_none _ hnone]
    rw [List.find?_cons_of_pos _ (by simp)]

/-- C4 (amended): registering a definition whose name is already present
does not fail; the freshly constructed record silently overwrites the
existing one (Python dict assignment), and afterwards the registry maps
that name to the new record. -/
theorem c4_duplicate_overwrites (reg : Registry) (a : Args) (v : OSVariant)
    (hok : mkVariant reg a = .ok v) :
    _add_var reg a = .ok (regSet reg v) ∧
    regGet (regSet reg v) v.name = some v := by
  constructor
  · simp [_add_var, hok]
  · exact regGet_regSet reg v

theorem c4_witness :
    (mkVariant dupReg1 { linuxArgs2 with is_type := true } = .ok linuxRec2 ∧
      "linux" ∈ dupReg1.map OSVariant.name) ∧
    _add_var dupReg1 { linuxArgs2 with is_type := true } =
      .ok (regSet dupReg1 linuxRec2) ∧
    regGet (regSet dupReg1 linuxRec2) linuxRec2.name = some linuxRec2 :=
  ⟨⟨by decide, by decide⟩,
    (c4_duplicate_overwrites dupReg1 { linuxArgs2 with is_type := true }
        linuxRec2 (by decide)).1,
    (c4_duplicate_overwrites dupReg1 { linuxArgs2 with is_type := true }
        linuxRec2 (by decide)).2⟩

/-- Registering `linux` a second time succeeds and replaces the earlier
record (the registry's entry for `linux` changes), contradicting the
claim that a duplicate registration fails and leaves the existing record
unchanged. -/
theorem c4_counterexample :
    _add_type dupReg1 linuxArgs2 = .ok dupReg2 ∧
    regGet dupReg2 "linux" ≠ regGet dupReg1 "linux" := ⟨by decide, by decide⟩

/-! ### Attribute lookup -/

/-- C6: `lookup_osdict_key` returns the default outright when no variant
is named; errors on an unknown variant name; and otherwise returns the
record's resolved field value — resolving a conditional default against
the oracle with the caller's default as fallback, substituting the
default for the unset sentinel, and passing any concrete value through. -/
theorem c6_lookup_resolution (reg : Registry) (conn : String → String → Bool)
    (hv : String) (key : FieldK) (dflt : Val) :
    (lookup_osdict_key reg conn hv none key dflt = .ok dflt) ∧
    (∀ vname, regGet reg vname = none →
      lookup_osdict_key reg conn hv (some vname) key dflt = .error "KeyError") ∧
    (∀ vname r, regGet reg vname = some r →
      ((getField r key = .sentinel →
          lookup_osdict_key reg conn hv (some vname) key dflt = .ok dflt) ∧
        (∀ sv, getField r key = .base sv →
          lookup_osdict_key reg conn hv (some vname) key dflt = .ok (.base sv)) ∧
        (∀ cs, getField r key = .check cs →
          lookup_osdict_key reg conn hv (some vname) key dflt =
            .ok (resolveCheck cs conn hv dflt)))) := by
  refine ⟨by simp [lookup_osdict_key], ?_, ?_⟩
  · intro vname hnone
    simp [lookup_osdict_key, hnone]
  · intro vname r hsome
    refine ⟨?_, ?_, ?_⟩
    · intro hf
      simp [lookup_osdict_key, hsome, hf]
    · intro sv hf
      simp [lookup_osdict_key, hsome, hf]
    · intro cs hf
      simp only [lookup_osdict_key, hsome, hf, resolveCheck]
      cases hc : SupportCheck.check cs conn hv <;> simp [hc]

theorem c6_witness :
    (regGet demoReg "nosuch" = none ∧
      regGet demoReg "msdos" = some msdosRec ∧
      getField msdosRec .clock = Val.sentinel) ∧
    lookup_osdict_key demoReg oracleFalse "kvm" (some "nosuch") .acpi
        (.base (.vstr "dd")) = .error "KeyError" ∧
    lookup_osdict_key demoReg oracleFalse "kvm" none .acpi
        (.base (.vstr "dd")) = .ok (.base (.vstr "dd")) ∧
    lookup_osdict_key demoReg oracleFalse "kvm" (some "msdos") .clock
        (.base (.vstr "utc")) = .ok (.base (.vstr "utc")) :=
  ⟨⟨by decide, by decide, by decide⟩,
    (c6_lookup_resolution demoReg oracleFalse "kvm" .acpi
        (.base (.vstr "dd"))).2.1 "nosuch" (by decide),
    (c6_lookup_resolution demoReg oracleFalse "kvm" .acpi
        (.base (.vstr "dd"))).1,
    ((c6_lookup_resolution demoReg oracleFalse "kvm" .clock
          (.base (.vstr "utc"))).2.2 "msdos" msdosRec (by decide)).1 (by decide)⟩

/-- C10: a field explicitly resolved to a concrete falsy value (`False`
or `None`) is returned as that value itself, never replaced by the
caller's default; only the dedicated sentinel triggers the default.  The
same holds for a conditional default whose matched pair carries a falsy
value. -/
theorem c10_falsy_values (reg : Registry) (conn : String → String → Bool)
    (hv : String) (vname : String) (r : OSVariant) (key : FieldK) (dflt : Val)
    (hsome : regGet reg vname = some r) :
    (∀ sv, getField r key = .base sv →
      lookup_osdict_key reg conn hv (some vname) key dflt = .ok (.base sv)) ∧
    (∀ cs sv, getField r key = .check cs →
      SupportCheck.check cs conn hv = .base sv →
      lookup_osdict_key reg conn hv (some vname) key dflt = .ok (.base sv)) := by
  constructor
  · intro sv hf
    simp [lookup_osdict_key, hsome, hf]
  · intro cs sv hf hc
    simp [lookup_osdict_key, hsome, hf, hc]

theorem c10_witness :
    (regGet demoReg "msdos" = some msdosRec ∧
      getField msdosRec .acpi = Val.base (.vbool false)) ∧
    lookup_osdict_key demoReg oracleFalse "kvm" (some "msdos") .acpi
        (.base (.vbool true)) = .ok (.base (.vbool false)) :=
  ⟨⟨by decide, by decide⟩,
    (c10_falsy_values demoReg oracleFalse "kvm" "msdos" msdosRec .acpi
        (.base (.vbool true)) (by decide)).1 _ (by decide)⟩

/-! ### Conditional-default resolution -/

/-- C3: resolving a conditional default returns the value of the first
pair whose capability the oracle supports and the fallback when none is
supported; the oracle is queried in list order, at most once per pair,
and not at all after the first supported pair (the query trace is the
keys of the unsupported prefix plus the first supported key). -/
theorem c3_check_resolution (cs : SupportCheck) (conn : String → String → Bool)
    (hv : String) (fallback : Val) :
    (SupportCheck.checkWithTrace cs conn hv).1 = SupportCheck.check cs conn hv ∧
    ((∃ pre k v post, cs = pre ++ (k, v) :: post ∧
        (∀ p ∈ pre, conn p.1 hv = false) ∧ conn k hv = true ∧
        SupportCheck.check cs conn hv = .base v ∧
        resolveCheck cs conn hv fallback = .base v ∧
        (SupportCheck.checkWithTrace cs conn hv).2 = pre.map Prod.fst ++ [k]) ∨
      ((∀ p ∈ cs, conn p.1 hv = false) ∧
        SupportCheck.check cs conn hv = .sentinel ∧
        resolveCheck cs conn hv fallback = fallback ∧
        (SupportCheck.checkWithTrace cs conn hv).2 = cs.map Prod.fst)) := by
  induction cs with
  | nil => exact ⟨rfl, Or.inr ⟨by simp, rfl, rfl, rfl⟩⟩
  | cons hd t ih =>
    obtain ⟨k0, v0⟩ := hd
    by_cases hc : conn k0 hv = true
    · refine ⟨by simp [SupportCheck.checkWithTrace, SupportCheck.check, hc], Or.inl ?_⟩
      refine ⟨[], k0, v0, t, by simp, by simp, hc, ?_, ?_, ?_⟩
      · simp [SupportCheck.check, hc]
      · simp [resolveCheck, SupportCheck.check, hc]
      · simp [SupportCheck.checkWithTrace, hc]
    · have hc0 : conn k0 hv = false := by
        cases hcc : conn k0 hv
        · rfl
        · exact absurd hcc hc
      have hchk : SupportCheck.check ((k0, v0) :: t) conn hv =
          SupportCheck.check t conn hv := by
        simp [SupportCheck.check, hc0]
      have htr : (SupportCheck.checkWithTrace ((k0, v0) :: t) conn hv).2 =
          k0 :: (SupportCheck.checkWithTrace t conn hv).2 := by
        simp [SupportCheck.checkWithTrace, hc0]
      have hres : resolveCheck ((k0, v0) :: t) conn hv fallback =
          resolveCheck t conn hv fallback := by
        simp [resolveCheck, hchk]
      refine ⟨?_, ?_⟩
      · simp [SupportCheck.checkWithTrace, SupportCheck.check, hc0, ih.1]
      · rcases ih.2 with ⟨pre, k, v, post, heq, hpre, hk, hchk2, hres2, htr2⟩ |
          ⟨hall, hchk2, hres2, htr2⟩
        · left
          refine ⟨(k0, v0) :: pre, k, v, post, by rw [List.cons_append, heq], ?_,
            hk, by rw [hchk, hchk2], by rw [hres, hres2], ?_⟩
          · intro p hp
            rcases List.mem_cons.mp hp with rfl | hp2
            · exact hc0
            · exact hpre p hp2
          · rw [htr, htr2, List.map_cons, List.cons_append]
        · right
          refine ⟨?_, by rw [hchk, hchk2], by rw [hres, hres2], ?_⟩
          · intro p hp
            rcases List.mem_cons.mp hp with rfl | hp2
            · exact hc0
            · exact hall p hp2
          · rw [htr, htr2, List.map_cons]

theorem c3_witness :
    resolveCheck [("virtio-support", .vstr "virtio")] oracleFalse "kvm"
        (.base (.vstr "ide")) = .base (.vstr "ide") := by
  have h := (c3_check_resolution [("virtio-support", .vstr "virtio")] oracleFalse
    "kvm" (.base (.vstr "ide"))).2
  rcases h with ⟨pre, k, v, post, heq, hpre, hk, hrest⟩ | ⟨hall, hchk, hres, htr⟩
  · exact Bool.noConfusion hk
  · exact hres

theorem c7_witness :
    ∃ v, mkVariant [] { name := "linux", label := "Linux", is_type := true } = .ok v :=
  (c7_construction_errors [] { name := "linux", label := "Linux", is_type := true }).mpr
    (by
      rintro (⟨h1, h2⟩ | ⟨h1, h2⟩ | ⟨pname, hp, hg⟩ | h | h)
      · exact h2 rfl
      · exact Bool.noConfusion h1
      · exact Option.noConfusion hp
      · exact h (by decide)
      · exact (h "linux" (by decide)) (by decide))

end Osdict

